import Mathlib

/-!
Verification of the netstring framing library (`netstring.py`).

The source is shallowly embedded: Python `bytes` values become `List Nat`
(one element per byte), the mutable `Connection` object becomes a record
threaded through explicit state-passing functions, and exceptions become
explicit outcome constructors.  Python-specific primitives that the source
relies on (`int()` applied to a bytes object, slice and index semantics,
`bytes.index`) are modelled as their own definitions so that `next_event`
can be transcribed branch for branch.
-/

namespace Netstring

/-- Python bytes value: a list of byte values. -/
abbrev Bytes := List Nat

/-- `END_ORD = ord(b',')`: ASCII code of the frame terminator. -/
def END_ORD : Nat := 44

/-- ASCII code of `:`, the separator searched for by `bytes.index(b":")`. -/
def COLON : Nat := 58

/-- The `Connection` object's state: `_receive_buffer` and `closed`. -/
structure Connection where
  receive_buffer : Bytes
  closed : Bool
deriving DecidableEq

/-- `Connection.__init__`: empty buffer, not closed. -/
def Connection.init : Connection := ⟨[], false⟩

/-- `Connection.close`: set `closed`, clear the buffer. -/
def Connection.close (c : Connection) : Connection :=
  { c with closed := true, receive_buffer := [] }

/-- Helper for `natRepr`, structurally recursive on a fuel argument. -/
def natReprAux : Nat → Nat → List Nat
  | 0, _ => []
  | fuel + 1, n =>
    if n < 10 then [48 + n] else natReprAux fuel (n / 10) ++ [48 + n % 10]

/-- ASCII decimal representation of a natural number, as produced by
Python's `f"{n}"` formatting. -/
def natRepr (n : Nat) : List Nat := natReprAux (n + 1) n

/-- `Connection.send_data`: `f"{len(event)}:".encode() + event + END`. -/
def send_data (event : Bytes) : Bytes :=
  natRepr event.length ++ COLON :: (event ++ [END_ORD])

/-- ASCII decimal digit, the digits accepted by Python `int()`
on a bytes argument. -/
def isPyDigit (b : Nat) : Bool := 48 ≤ b && b ≤ 57

/-- ASCII whitespace stripped by Python `int()` on a bytes argument. -/
def isPySpace (b : Nat) : Bool :=
  b == 32 || b == 9 || b == 10 || b == 11 || b == 12 || b == 13

/-- Strip leading and trailing ASCII whitespace, as `int()` does. -/
def stripSpaces (l : Bytes) : Bytes :=
  ((l.dropWhile isPySpace).reverse.dropWhile isPySpace).reverse

/-- Tail of a Python integer-literal digit run: digits with single
underscores allowed between digits only. -/
def bodyTailOk : Bytes → Bool
  | [] => true
  | b :: rest =>
    if isPyDigit b then bodyTailOk rest
    else if b == 95 then
      match rest with
      | [] => false
      | c :: r => isPyDigit c && bodyTailOk r
    else false

/-- A Python integer-literal digit run: nonempty, starts with a digit,
underscores only between digits. -/
def bodyOk : Bytes → Bool
  | [] => false
  | b :: rest => isPyDigit b && bodyTailOk rest

/-- Value of a run of ASCII digits, most significant first. -/
def digitsVal (l : Bytes) : Nat := l.foldl (fun a b => 10 * a + (b - 48)) 0

/-- Value of a digit run possibly containing underscore separators. -/
def bodyVal (l : Bytes) : Nat := digitsVal (l.filter (fun b => !(b == 95)))

/-- Model of Python `int()` applied to a bytes object: strips ASCII
whitespace, accepts an optional single `+`/`-` sign, then a nonempty run
of decimal digits with single underscores between digits.  `none` models
the `ValueError` raised on any other input. -/
def pyInt (l : Bytes) : Option Int :=
  match stripSpaces l with
  | [] => none
  | b :: rest =>
    if b == 43 then (if bodyOk rest then some (bodyVal rest) else none)
    else if b == 45 then (if bodyOk rest then some (-(bodyVal rest : Int)) else none)
    else if bodyOk (b :: rest) then some (bodyVal (b :: rest)) else none

/-- `bytes.index(b":")`: index of the first colon, `none` modelling the
`ValueError` when there is no colon. -/
def findColon : Bytes → Option Nat
  | [] => none
  | b :: rest => if b == COLON then some 0 else (findColon rest).map (· + 1)

/-- Normalise one slice endpoint the way Python does for `l[a:b]`:
negative indices count from the end, then the result is clamped
into `[0, len]`. -/
def pyNorm (n : Nat) (i : Int) : Nat :=
  if i < 0 then (i + n).toNat else min i.toNat n

/-- Python slice `l[a:b]` (step 1). -/
def pySlice (l : Bytes) (a b : Int) : Bytes :=
  (l.take (pyNorm l.length b)).drop (pyNorm l.length a)

/-- Python slice `l[a:]`. -/
def pySliceFrom (l : Bytes) (a : Int) : Bytes :=
  l.drop (pyNorm l.length a)

/-- Python single-element indexing `l[i]`: negative indices count from the
end; `none` models the `IndexError` on an out-of-range index. -/
def pyGet (l : Bytes) (i : Int) : Option Nat :=
  let j : Int := if i < 0 then i + l.length else i
  if j < 0 then none else l.get? j.toNat

/-- Outcome of one `next_event` call.  `frame` is a returned event,
`needData` / `connectionClosed` are the two sentinel returns, and
`valueError` / `indexError` model the exceptions that can propagate
out of the call. -/
inductive Event where
  | frame (data : Bytes)
  | needData
  | connectionClosed
  | valueError
  | indexError
deriving DecidableEq

/-- `Connection.next_event`, transcribed branch for branch.  The pair is
the updated connection state together with the outcome. -/
def next_event (c : Connection) : Connection × Event :=
  if c.receive_buffer = [] then
    (c, if c.closed then .connectionClosed else .needData)
  else
    match findColon c.receive_buffer with
    | none =>
      match pyInt c.receive_buffer with
      | none => (c.close, .valueError)
      | some _ => (c, if c.closed then .connectionClosed else .needData)
    | some ndig =>
      match pyInt (c.receive_buffer.take ndig) with
      | none => (c, .valueError)
      | some n =>
        let start : Int := (ndig : Int) + 1
        let stop : Int := start + n + 1
        if (c.receive_buffer.length : Int) < stop then
          (c, if c.closed then .connectionClosed else .needData)
        else
          let result := pySlice c.receive_buffer start (stop - 1)
          match pyGet c.receive_buffer (stop - 1) with
          | none => (c, .indexError)
          | some b =>
            if b ≠ END_ORD then (c.close, .valueError)
            else ({ c with receive_buffer := pySliceFrom c.receive_buffer stop },
                  .frame result)

/-- Outcome of one `receive_data` call; `invalidState` models the
`ValueError("Cannot receive more data: received closed")`. -/
inductive RecvResult where
  | ok
  | invalidState
deriving DecidableEq

/-- `Connection.receive_data`: append nonempty data (error if closed),
close on empty data. -/
def receive_data (c : Connection) (data : Bytes) : Connection × RecvResult :=
  if data ≠ [] then
    if c.closed then (c, .invalidState)
    else ({ c with receive_buffer := c.receive_buffer ++ data }, .ok)
  else (c.close, .ok)

/-- Why a drain loop (`Connection.__iter__`) stopped. -/
inductive DrainStop where
  | needData
  | connectionClosed
  | valueError
  | indexError
  | outOfFuel
deriving DecidableEq

/-- `Connection.__iter__` / the drain loop of `stream_data`: repeatedly
call `next_event`, collecting frames, until a sentinel is returned or an
exception propagates.  Fuel makes the recursion structural; every theorem
below instantiates it large enough that `outOfFuel` never occurs. -/
def drain : Nat → Connection → Connection × List Bytes × DrainStop
  | 0, c => (c, [], .outOfFuel)
  | fuel + 1, c =>
    match next_event c with
    | (c', .frame d) =>
      let r := drain fuel c'
      (r.1, d :: r.2.1, r.2.2)
    | (c', .needData) => (c', [], .needData)
    | (c', .connectionClosed) => (c', [], .connectionClosed)
    | (c', .valueError) => (c', [], .valueError)
    | (c', .indexError) => (c', [], .indexError)

/-- How a `stream` run ended: `done` is normal exhaustion of the source;
the others model the exception that escaped. -/
inductive StreamStop where
  | done
  | invalidState
  | valueError
  | indexError
  | outOfFuel
deriving DecidableEq

/-- The `stream(source)` generator over a finite list of chunks: for each
chunk, `stream_data` feeds it and drains the connection; the collected
frames of all chunks are yielded in order. -/
def streamRun (fuel : Nat) : Connection → List Bytes → Connection × List Bytes × StreamStop
  | c, [] => (c, [], .done)
  | c, chunk :: rest =>
    match receive_data c chunk with
    | (c1, .invalidState) => (c1, [], .invalidState)
    | (c1, .ok) =>
      match drain fuel c1 with
      | (c2, fs, .needData) =>
        let r := streamRun fuel c2 rest
        (r.1, fs ++ r.2.1, r.2.2)
      | (c2, fs, .connectionClosed) =>
        let r := streamRun fuel c2 rest
        (r.1, fs ++ r.2.1, r.2.2)
      | (c2, fs, .valueError) => (c2, fs, .valueError)
      | (c2, fs, .indexError) => (c2, fs, .indexError)
      | (c2, fs, .outOfFuel) => (c2, fs, .outOfFuel)

/-- One public operation on a `Connection`. -/
inductive Step : Connection → Connection → Prop where
  | feed (c : Connection) (data : Bytes) : Step c (receive_data c data).1
  | next (c : Connection) : Step c (next_event c).1
  | close (c : Connection) : Step c c.close

/-- Connection states reachable from a fresh `Connection` by any sequence
of `receive_data`, `next_event` and `close` calls. -/
inductive Reachable : Connection → Prop where
  | init : Reachable Connection.init
  | step {c c' : Connection} : Reachable c → Step c c' → Reachable c'

/-- `r` is a proper prefix of some well-formed encoded frame: nothing yet,
part of the digit run, or the digit run, the colon and at most
`digitsVal D` further bytes. -/
def PartialFrame (r : Bytes) : Prop :=
  r = [] ∨ (r ≠ [] ∧ ∀ b ∈ r, isPyDigit b = true) ∨
  (∃ D t, D ≠ [] ∧ (∀ b ∈ D, isPyDigit b = true) ∧ t.length ≤ digitsVal D ∧
    r = D ++ COLON :: t)

/-- `ParsesTo bytes ps r`: `bytes` is a concatenation of complete
well-formed encoded frames carrying the payloads `ps`, followed by the
proper frame prefix `r`. -/
inductive ParsesTo : Bytes → List Bytes → Bytes → Prop where
  | nil {r : Bytes} : PartialFrame r → ParsesTo r [] r
  | cons {D p rest : Bytes} {ps : List Bytes} {r : Bytes} :
      D ≠ [] → (∀ b ∈ D, isPyDigit b = true) → digitsVal D = p.length →
      ParsesTo rest ps r →
      ParsesTo (D ++ COLON :: (p ++ END_ORD :: rest)) (p :: ps) r

/-! ### Basic facts about digits and `pyInt` -/

theorem isPyDigit_iff {b : Nat} : isPyDigit b = true ↔ 48 ≤ b ∧ b ≤ 57 := by
  simp [isPyDigit]

theorem digit_not_space {b : Nat} (h : isPyDigit b = true) : isPySpace b = false := by
  rw [isPyDigit_iff] at h
  simp only [isPySpace, Bool.or_eq_false_iff, beq_eq_false_iff_ne]
  omega

theorem dropWhile_eq_self_of_not {l : Bytes} (h : ∀ b ∈ l, isPySpace b = false) :
    l.dropWhile isPySpace = l := by
  cases l with
  | nil => rfl
  | cons b rest =>
    rw [List.dropWhile_cons_of_neg]
    simp [h b (by simp)]

theorem stripSpaces_digits {l : Bytes} (h : ∀ b ∈ l, isPyDigit b = true) :
    stripSpaces l = l := by
  have hns : ∀ b ∈ l, isPySpace b = false := fun b hb => digit_not_space (h b hb)
  unfold stripSpaces
  rw [dropWhile_eq_self_of_not hns, dropWhile_eq_self_of_not (by
    intro b hb
    exact hns b (List.mem_reverse.mp hb)), List.reverse_reverse]

theorem bodyTailOk_digits {l : Bytes} (h : ∀ b ∈ l, isPyDigit b = true) :
    bodyTailOk l = true := by
  induction l with
  | nil => rfl
  | cons b rest ih =>
    have hb : isPyDigit b = true := h b (by simp)
    have ht : bodyTailOk rest = true := ih fun x hx => h x (by simp [hx])
    rw [bodyTailOk.eq_def]
    simp [hb, ht]

theorem bodyOk_digits {l : Bytes} (hne : l ≠ []) (h : ∀ b ∈ l, isPyDigit b = true) :
    bodyOk l = true := by
  cases l with
  | nil => exact absurd rfl hne
  | cons b rest =>
    rw [bodyOk]
    simp only [h b (by simp), Bool.true_and]
    exact bodyTailOk_digits fun x hx => h x (by simp [hx])

theorem filter_digits {l : Bytes} (h : ∀ b ∈ l, isPyDigit b = true) :
    l.filter (fun b => !(b == 95)) = l := by
  apply List.filter_eq_self.mpr
  intro b hb
  have hd := isPyDigit_iff.mp (h b hb)
  have : b ≠ 95 := by omega
  simp [this]

/-- Python `int()` on a nonempty run of plain ASCII digits succeeds and
returns their decimal value. -/
theorem pyInt_digits {l : Bytes} (hne : l ≠ []) (h : ∀ b ∈ l, isPyDigit b = true) :
    pyInt l = some (digitsVal l : Int) := by
  unfold pyInt
  rw [stripSpaces_digits h]
  cases l with
  | nil => exact absurd rfl hne
  | cons b rest =>
    have hb := isPyDigit_iff.mp (h b (by simp))
    have h43 : b ≠ 43 := by omega
    have h45 : b ≠ 45 := by omega
    simp [h43, h45, bodyOk_digits (List.cons_ne_nil b rest) h, bodyVal, filter_digits h]

/-! ### `findColon` -/

theorem findColon_digits {l : Bytes} (h : ∀ b ∈ l, isPyDigit b = true) :
    findColon l = none := by
  induction l with
  | nil => rfl
  | cons b rest ih =>
    have hb := isPyDigit_iff.mp (h b (by simp))
    rw [findColon, if_neg (by simp only [COLON, beq_iff_eq]; omega)]
    rw [ih fun x hx => h x (by simp [hx])]
    rfl

theorem findColon_append {D rest : Bytes} (h : ∀ b ∈ D, isPyDigit b = true) :
    findColon (D ++ COLON :: rest) = some D.length := by
  induction D with
  | nil => simp [findColon]
  | cons b d ih =>
    have hb := isPyDigit_iff.mp (h b (by simp))
    rw [List.cons_append, findColon, if_neg (by simp only [COLON, beq_iff_eq]; omega),
      ih fun x hx => h x (by simp [hx])]
    rfl

/-! ### `natRepr` -/

theorem natReprAux_spec : ∀ fuel n, n < fuel →
    natReprAux fuel n ≠ [] ∧ (∀ b ∈ natReprAux fuel n, isPyDigit b = true) ∧
    digitsVal (natReprAux fuel n) = n := by
  intro fuel
  induction fuel with
  | zero => omega
  | succ f ih =>
    intro n hn
    by_cases h10 : n < 10
    · rw [natReprAux, if_pos h10]
      refine ⟨by simp, ?_, ?_⟩
      · intro b hb
        simp only [List.mem_singleton] at hb
        subst hb
        rw [isPyDigit_iff]
        omega
      · simp [digitsVal]
    · rw [natReprAux, if_neg h10]
      have hdiv : n / 10 < f := by
        have h1 := Nat.div_add_mod n 10
        have h2 : n % 10 < 10 := Nat.mod_lt n (by omega)
        omega
      obtain ⟨hne, hdig, hval⟩ := ih (n / 10) hdiv
      refine ⟨by simp, ?_, ?_⟩
      · intro b hb
        rcases List.mem_append.mp hb with hb | hb
        · exact hdig b hb
        · simp only [List.mem_singleton] at hb
          subst hb
          rw [isPyDigit_iff]
          have := Nat.mod_lt n (show 0 < 10 by omega)
          omega
      · unfold digitsVal at hval ⊢
        rw [List.foldl_append]
        simp only [List.foldl_cons, List.foldl_nil, hval]
        have h2 : n % 10 < 10 := Nat.mod_lt n (by omega)
        have h1 := Nat.div_add_mod n 10
        omega

theorem natRepr_ne_nil (n : Nat) : natRepr n ≠ [] :=
  (natReprAux_spec (n + 1) n (by omega)).1

theorem natRepr_digits (n : Nat) : ∀ b ∈ natRepr n, isPyDigit b = true :=
  (natReprAux_spec (n + 1) n (by omega)).2.1

theorem digitsVal_natRepr (n : Nat) : digitsVal (natRepr n) = n :=
  (natReprAux_spec (n + 1) n (by omega)).2.2

/-! ### Python slicing and indexing at nonnegative in-range positions -/

theorem pyNorm_nat {len k : Nat} (h : k ≤ len) : pyNorm len (k : Int) = k := by
  unfold pyNorm
  rw [if_neg (by omega)]
  simp [h]

theorem pyGet_nat (l : Bytes) (k : Nat) : pyGet l (k : Int) = l.get? k := by
  unfold pyGet
  rw [if_neg (by omega), if_neg (by omega)]
  simp

theorem pySliceFrom_nat (l : Bytes) {k : Nat} (h : k ≤ l.length) :
    pySliceFrom l (k : Int) = l.drop k := by
  unfold pySliceFrom
  rw [pyNorm_nat h]

theorem pySlice_nat (l : Bytes) {a b : Nat} (hab : a ≤ b) (hb : b ≤ l.length) :
    pySlice l (a : Int) (b : Int) = (l.drop a).take (b - a) := by
  unfold pySlice
  rw [pyNorm_nat hb, pyNorm_nat (le_trans hab hb), List.drop_take]

/-! ### The three outcomes of one `next_event` call on a decodable,
partial, or badly terminated buffer -/

/-- A complete well-formed frame at the head of the buffer is decoded:
the payload is returned verbatim and exactly the frame's bytes are
consumed. -/
theorem next_event_frame {D rest : Bytes} (cl : Bool) (hD : D ≠ [])
    (hdig : ∀ b ∈ D, isPyDigit b = true)
    (hlen : digitsVal D + 1 ≤ rest.length)
    (hterm : rest.get? (digitsVal D) = some END_ORD) :
    next_event ⟨D ++ COLON :: rest, cl⟩ =
      (⟨rest.drop (digitsVal D + 1), cl⟩, .frame (rest.take (digitsVal D))) := by
  have hbuf : D ++ COLON :: rest ≠ [] := by simp
  have hlen' : (D ++ COLON :: rest).length = D.length + 1 + rest.length := by
    simp; omega
  have htake : (D ++ COLON :: rest).take D.length = D := by
    rw [List.take_left]
  set d := D.length with hd
  set n := digitsVal D with hn
  unfold next_event
  simp only [if_neg hbuf, findColon_append hdig, htake, pyInt_digits hD hdig]
  have hstop : ¬ (((D ++ COLON :: rest).length : Int) < (d : Int) + 1 + (n : Int) + 1) := by
    rw [hlen']
    push_cast
    omega
  rw [if_neg hstop]
  have hc1 : ((d : Int) + 1 + (n : Int) + 1 - 1) = ((d + n + 1 : Nat) : Int) := by
    push_cast; ring
  have hc2 : ((d : Int) + 1 + (n : Int) + 1) = ((d + n + 2 : Nat) : Int) := by
    push_cast; ring
  have happ : D ++ COLON :: rest = (D ++ [COLON]) ++ rest := by simp
  have hdl : (D ++ [COLON]).length = d + 1 := by simp
  have hget : (D ++ COLON :: rest).get? (d + n + 1) = some END_ORD := by
    rw [happ, List.get?_append_right (by omega)]
    rw [hdl]
    have : d + n + 1 - (d + 1) = n := by omega
    rw [this, hterm]
  have hslice : pySlice (D ++ COLON :: rest) ((d : Int) + 1) ((d : Int) + 1 + (n : Int) + 1 - 1) =
      rest.take n := by
    rw [hc1]
    have h1 : ((d : Int) + 1) = ((d + 1 : Nat) : Int) := by push_cast; ring
    rw [h1, pySlice_nat _ (by omega) (by omega)]
    rw [happ]
    have : ((D ++ [COLON]) ++ rest).drop (d + 1) = rest := by
      rw [← hdl, List.drop_left]
    rw [this]
    congr 1
    omega
  have hgetp : pyGet (D ++ COLON :: rest) ((d : Int) + 1 + (n : Int) + 1 - 1) =
      some END_ORD := by
    rw [hc1, pyGet_nat, hget]
  have hfrom : pySliceFrom (D ++ COLON :: rest) ((d : Int) + 1 + (n : Int) + 1) =
      rest.drop (n + 1) := by
    rw [hc2, pySliceFrom_nat _ (by omega)]
    rw [happ]
    have h3 : rest = ((D ++ [COLON]) ++ rest).drop (d + 1) := by
      rw [← hdl, List.drop_left]
    conv_rhs => rw [h3]
    rw [List.drop_drop]
    congr 1
    omega
  simp only [hslice, hgetp, hfrom]
  rw [if_neg (by simp)]

/-- A buffer that is a proper prefix of a well-formed frame yields
`NeedMoreData` (`ConnectionClosed` when closed) and is left untouched. -/
theorem next_event_partial {r : Bytes} (cl : Bool) (h : PartialFrame r) :
    next_event ⟨r, cl⟩ = (⟨r, cl⟩, if cl then .connectionClosed else .needData) := by
  rcases h with h | ⟨hne, hdig⟩ | ⟨D, t, hD, hdig, hlt, hr⟩
  · subst h
    unfold next_event
    simp
  · unfold next_event
    rw [if_neg hne]
    simp only [findColon_digits hdig, pyInt_digits hne hdig]
  · subst hr
    have hbuf : D ++ COLON :: t ≠ [] := by simp
    have htake : (D ++ COLON :: t).take D.length = D := by rw [List.take_left]
    unfold next_event
    simp only [if_neg hbuf, findColon_append hdig, htake, pyInt_digits hD hdig]
    rw [if_pos ?_]
    have : (D ++ COLON :: t).length = D.length + 1 + t.length := by simp; omega
    rw [this]
    push_cast
    omega

/-- A complete candidate frame whose terminator byte is wrong closes the
connection, clears the buffer and raises. -/
theorem next_event_badTerm {D rest : Bytes} (cl : Bool) {b : Nat} (hD : D ≠ [])
    (hdig : ∀ b ∈ D, isPyDigit b = true)
    (hlen : digitsVal D + 1 ≤ rest.length)
    (hb : rest.get? (digitsVal D) = some b) (hbne : b ≠ END_ORD) :
    next_event ⟨D ++ COLON :: rest, cl⟩ = (⟨[], true⟩, .valueError) := by
  have hbuf : D ++ COLON :: rest ≠ [] := by simp
  have hlen' : (D ++ COLON :: rest).length = D.length + 1 + rest.length := by
    simp; omega
  have htake : (D ++ COLON :: rest).take D.length = D := by rw [List.take_left]
  set d := D.length with hd
  set n := digitsVal D with hn
  unfold next_event
  simp only [if_neg hbuf, findColon_append hdig, htake, pyInt_digits hD hdig]
  have hstop : ¬ (((D ++ COLON :: rest).length : Int) < (d : Int) + 1 + (n : Int) + 1) := by
    rw [hlen']
    push_cast
    omega
  rw [if_neg hstop]
  have hc1 : ((d : Int) + 1 + (n : Int) + 1 - 1) = ((d + n + 1 : Nat) : Int) := by
    push_cast; ring
  have happ : D ++ COLON :: rest = (D ++ [COLON]) ++ rest := by simp
  have hdl : (D ++ [COLON]).length = d + 1 := by simp
  have hgetp : pyGet (D ++ COLON :: rest) ((d : Int) + 1 + (n : Int) + 1 - 1) = some b := by
    rw [hc1, pyGet_nat, happ, List.get?_append_right (by omega), hdl]
    have : d + n + 1 - (d + 1) = n := by omega
    rw [this, hb]
  simp only [hgetp]
  rw [if_pos hbne]
  rfl

/-! ### State invariants -/

/-- Every branch of `next_event` either performs `close` or leaves the
`closed` flag as it was. -/
theorem next_event_conn (c : Connection) :
    (next_event c).1 = c.close ∨ (next_event c).1.closed = c.closed := by
  unfold next_event
  repeat' first
  | split
  | dsimp only
  all_goals first
  | exact Or.inl rfl
  | exact Or.inr rfl

/-- On a closed connection with an empty buffer, `next_event` returns the
`CONNECTION_CLOSED` sentinel and changes nothing. -/
theorem closed_empty_next {c : Connection} (hc : c.closed = true)
    (hb : c.receive_buffer = []) : next_event c = (c, .connectionClosed) := by
  unfold next_event
  simp [hb, hc]

/-- No operation ever resets the `closed` flag. -/
theorem step_closed_mono {c c' : Connection} (h : Step c c') (hc : c.closed = true) :
    c'.closed = true := by
  cases h with
  | feed data =>
    unfold receive_data
    repeat' split
    all_goals simp_all [Connection.close]
  | next =>
    rcases next_event_conn c with h' | h'
    · rw [h']; rfl
    · rw [h', hc]
  | close => rfl

/-- Every reachable closed connection has an empty buffer. -/
theorem reachable_closed_empty {c : Connection} (h : Reachable c) :
    c.closed = true → c.receive_buffer = [] := by
  induction h with
  | init => intro hc; cases hc
  | @step c0 c1 hr hs ih =>
    intro hc
    cases hs with
    | feed data =>
      by_cases hd : data = []
      · simp [receive_data, hd, Connection.close]
      · by_cases hcl : c0.closed = true
        · rw [show receive_data c0 data = (c0, .invalidState) by
            unfold receive_data
            rw [if_pos hd, if_pos hcl]]
          exact ih hcl
        · exfalso
          apply hcl
          rw [show receive_data c0 data =
              ({ c0 with receive_buffer := c0.receive_buffer ++ data }, .ok) by
            unfold receive_data
            rw [if_pos hd, if_neg hcl]] at hc
          exact hc
    | next =>
      by_cases hcl : c0.closed = true
      · rw [closed_empty_next hcl (ih hcl)]
        exact ih hcl
      · rcases next_event_conn c0 with h' | h'
        · rw [h']; rfl
        · exact absurd (h'.symm.trans hc) hcl
    | close => rfl

/-! ### Prefixes of frames and the `ParsesTo` machinery -/

/-- Any initial segment of a proper frame prefix is itself a proper frame
prefix. -/
theorem partialFrame_take {r : Bytes} (h : PartialFrame r) (k : Nat) :
    PartialFrame (r.take k) := by
  rcases h with h | ⟨hne, hdig⟩ | ⟨D, t, hD, hdig, hlt, hr⟩
  · subst h
    left
    simp
  · by_cases hk : r.take k = []
    · left; exact hk
    · right; left
      exact ⟨hk, fun b hb => hdig b (List.mem_of_mem_take hb)⟩
  · subst hr
    by_cases hk : k ≤ D.length
    · have heq : (D ++ COLON :: t).take k = D.take k := by
        rw [List.take_append_eq_append_take]
        have : k - D.length = 0 := by omega
        simp [this]
      by_cases hk0 : (D ++ COLON :: t).take k = []
      · left; exact hk0
      · right; left
        refine ⟨hk0, fun b hb => ?_⟩
        rw [heq] at hb
        exact hdig b (List.mem_of_mem_take hb)
    · right; right
      refine ⟨D, t.take (k - D.length - 1), hD, hdig, ?_, ?_⟩
      · calc (t.take (k - D.length - 1)).length ≤ t.length := by
              rw [List.length_take]; omega
          _ ≤ digitsVal D := hlt
      · rw [List.take_append_eq_append_take, List.take_of_length_le (by omega)]
        congr 1
        have h1 : k - D.length = (k - D.length - 1) + 1 := by omega
        rw [h1]
        rfl

/-- Any proper initial segment of a complete well-formed frame is a
proper frame prefix. -/
theorem partialFrame_take_frame {D p : Bytes} (hD : D ≠ [])
    (hdig : ∀ b ∈ D, isPyDigit b = true) (hval : digitsVal D = p.length)
    {k : Nat} (hk : k < (D ++ COLON :: (p ++ [END_ORD])).length) :
    PartialFrame ((D ++ COLON :: (p ++ [END_ORD])).take k) := by
  have hlen : (D ++ COLON :: (p ++ [END_ORD])).length = D.length + 1 + p.length + 1 := by
    simp
    omega
  by_cases hkd : k ≤ D.length
  · have heq : (D ++ COLON :: (p ++ [END_ORD])).take k = D.take k := by
      rw [List.take_append_eq_append_take]
      have : k - D.length = 0 := by omega
      simp [this]
    by_cases hk0 : (D ++ COLON :: (p ++ [END_ORD])).take k = []
    · left; exact hk0
    · right; left
      refine ⟨hk0, fun b hb => ?_⟩
      rw [heq] at hb
      exact hdig b (List.mem_of_mem_take hb)
  · right; right
    refine ⟨D, (p ++ [END_ORD]).take (k - D.length - 1), hD, hdig, ?_, ?_⟩
    · rw [List.length_take]
      rw [hlen] at hk
      have : (p ++ [END_ORD]).length = p.length + 1 := by simp
      rw [hval]
      omega
    · rw [List.take_append_eq_append_take, List.take_of_length_le (by omega)]
      congr 1
      have h1 : k - D.length = (k - D.length - 1) + 1 := by omega
      rw [h1]
      rfl

/-- The trailing remainder of a parse is a proper frame prefix. -/
theorem parsesTo_partialFrame {bytes r : Bytes} {ps : List Bytes}
    (h : ParsesTo bytes ps r) : PartialFrame r := by
  induction h with
  | nil hp => exact hp
  | cons _ _ _ _ ih => exact ih

/-- Two decompositions digit-run/colon/rest of the same byte string
agree: digits never contain the colon, so the split is at the first
colon in both. -/
theorem colon_split_unique {D D' x y : Bytes}
    (hD : ∀ b ∈ D, isPyDigit b = true) (hD' : ∀ b ∈ D', isPyDigit b = true)
    (h : D ++ COLON :: x = D' ++ COLON :: y) : D = D' ∧ x = y := by
  induction D generalizing D' with
  | nil =>
    cases D' with
    | nil =>
      simp at h
      exact ⟨rfl, h⟩
    | cons b' d' =>
      have hb' := isPyDigit_iff.mp (hD' b' (by simp))
      simp only [List.nil_append, List.cons_append, List.cons.injEq] at h
      have : (COLON : Nat) = b' := h.1
      rw [COLON] at this
      omega
  | cons b d ih =>
    cases D' with
    | nil =>
      have hb := isPyDigit_iff.mp (hD b (by simp))
      simp only [List.nil_append, List.cons_append, List.cons.injEq] at h
      have : b = (COLON : Nat) := h.1
      rw [COLON] at this
      omega
    | cons b' d' =>
      simp only [List.cons_append, List.cons.injEq] at h
      obtain ⟨h1, h2⟩ := h
      obtain ⟨h3, h4⟩ := ih (fun z hz => hD z (by simp [hz]))
        (fun z hz => hD' z (by simp [hz])) h2
      exact ⟨by rw [h1, h3], h4⟩

/-- A byte string that is still a proper frame prefix contains no
complete frame: its parse is empty. -/
theorem parsesTo_partial_nil {bytes r : Bytes} {ps : List Bytes}
    (h : ParsesTo bytes ps r) (hp : PartialFrame bytes) :
    ps = [] ∧ r = bytes := by
  cases h with
  | nil _ => exact ⟨rfl, rfl⟩
  | @cons D p rest ps' r' hD hdig hval htail =>
    exfalso
    rcases hp with hp | ⟨hne, hdigs⟩ | ⟨D', t, hD', hdig', hlt, hr⟩
    · exact absurd hp (by simp)
    · have : (COLON : Nat) ∈ D ++ COLON :: (p ++ END_ORD :: rest) := by simp
      have := isPyDigit_iff.mp (hdigs _ this)
      rw [COLON] at this
      omega
    · obtain ⟨hDD, ht⟩ := colon_split_unique hdig hdig' hr
      subst hDD
      rw [← ht, hval] at hlt
      simp at hlt

/-- Draining a connection whose buffer parses into frames plus a trailing
proper prefix yields exactly those frames and leaves exactly the prefix. -/
theorem drain_parses {bytes r : Bytes} {ps : List Bytes}
    (h : ParsesTo bytes ps r) : ∀ fuel, ps.length < fuel →
    drain fuel ⟨bytes, false⟩ = (⟨r, false⟩, ps, .needData) := by
  induction h with
  | nil hp =>
    intro fuel hf
    match fuel, hf with
    | fuel + 1, _ =>
      rw [drain, next_event_partial false hp]
      rfl
  | @cons D p rest ps' r' hD hdig hval htail ih =>
    intro fuel hf
    match fuel, hf with
    | fuel + 1, hf =>
      have hterm : (p ++ END_ORD :: rest).get? (digitsVal D) = some END_ORD := by
        rw [hval, List.get?_append_right (le_refl _)]
        simp
      have hlen : digitsVal D + 1 ≤ (p ++ END_ORD :: rest).length := by
        rw [hval]; simp
      have htake : (p ++ END_ORD :: rest).take (digitsVal D) = p := by
        rw [hval, List.take_left]
      have hdrop : (p ++ END_ORD :: rest).drop (digitsVal D + 1) = rest := by
        rw [hval]
        have h2 : p ++ END_ORD :: rest = (p ++ [END_ORD]) ++ rest := by simp
        have hl : p.length + 1 = (p ++ [END_ORD]).length := by simp
        rw [h2, hl, List.drop_left]
      have hrec := ih fuel (by simp at hf; omega)
      rw [drain, next_event_frame false hD hdig hlen hterm, htake, hdrop]
      show ((drain fuel ⟨rest, false⟩).1, p :: (drain fuel ⟨rest, false⟩).2.1,
        (drain fuel ⟨rest, false⟩).2.2) = _
      rw [hrec]

/-- Splitting the byte string of a parse at any point splits the parse:
frames wholly inside the first part, a proper frame prefix `m` left over
at the cut, and a parse of `m` glued to the second part. -/
theorem parsesTo_split {bytes r : Bytes} {ps : List Bytes} (h : ParsesTo bytes ps r) :
    ∀ a b : Bytes, bytes = a ++ b →
    ∃ ps₁ ps₂ m, ps = ps₁ ++ ps₂ ∧ ParsesTo a ps₁ m ∧ ParsesTo (m ++ b) ps₂ r := by
  induction h with
  | @nil r hp =>
    intro a b heq
    refine ⟨[], [], a, rfl, ParsesTo.nil ?_, ?_⟩
    · have h1 : a = r.take a.length := by rw [heq, List.take_left]
      rw [h1]
      exact partialFrame_take hp a.length
    · rw [← heq]
      exact ParsesTo.nil hp
  | @cons D p rest ps' r' hD hdig hval htail ih =>
    intro a b heq
    have hbytes : D ++ COLON :: (p ++ END_ORD :: rest) =
        (D ++ COLON :: (p ++ [END_ORD])) ++ rest := by simp
    set F := D ++ COLON :: (p ++ [END_ORD]) with hF
    by_cases ha : a.length < F.length
    · refine ⟨[], p :: ps', a, rfl, ParsesTo.nil ?_, ?_⟩
      · have h1 : a = (F ++ rest).take a.length := by
          rw [← hbytes, heq, List.take_left]
        have h2 : (F ++ rest).take a.length = F.take a.length := by
          rw [List.take_append_eq_append_take]
          have h0 : a.length - F.length = 0 := by omega
          simp [h0]
        rw [h1, h2]
        exact partialFrame_take_frame hD hdig hval ha
      · rw [← heq]
        exact ParsesTo.cons hD hdig hval htail
    · push_neg at ha
      have h2 : a = (F ++ rest).take a.length := by
        rw [← hbytes, heq, List.take_left]
      obtain ⟨a', h1, h5⟩ : ∃ a', a = F ++ a' ∧ rest = a' ++ b := by
        refine ⟨rest.take (a.length - F.length), ?_, ?_⟩
        · conv_lhs => rw [h2]
          rw [List.take_append_eq_append_take, List.take_of_length_le ha]
        · have h4 : b = (F ++ rest).drop a.length := by
            rw [← hbytes, heq, List.drop_left]
          conv_rhs => rw [h4]
          rw [List.drop_append_eq_append_drop, List.drop_eq_nil_of_le ha,
            List.nil_append, List.take_append_drop]
      obtain ⟨ps₁, ps₂, m, hps, hp1, hp2⟩ := ih a' b h5
      refine ⟨p :: ps₁, ps₂, m, by rw [hps, List.cons_append], ?_, hp2⟩
      have h6 : a = D ++ COLON :: (p ++ END_ORD :: a') := by
        rw [h1, hF]
        simp
      rw [h6]
      exact ParsesTo.cons hD hdig hval hp1

/-- Running `stream` over nonempty chunks: starting from an open
connection holding a proper frame prefix, if the total byte stream parses
into frames `ps` plus trailing prefix `r`, exactly `ps` is yielded, the
run ends normally, and the connection ends open holding `r`. -/
theorem streamRun_parses {chunks : List Bytes} (hch : ∀ ch ∈ chunks, ch ≠ [])
    {buf r : Bytes} {ps : List Bytes} (hbuf : PartialFrame buf)
    (h : ParsesTo (buf ++ chunks.join) ps r) {fuel : Nat} (hf : ps.length < fuel) :
    streamRun fuel ⟨buf, false⟩ chunks = (⟨r, false⟩, ps, .done) := by
  induction chunks generalizing buf ps with
  | nil =>
    have hj : buf ++ ([] : List Bytes).join = buf := by simp
    rw [hj] at h
    obtain ⟨hps, hr⟩ := parsesTo_partial_nil h hbuf
    subst hps
    subst hr
    rfl
  | cons chunk rest ih =>
    have hchunk : chunk ≠ [] := hch chunk (by simp)
    have hrecv : receive_data ⟨buf, false⟩ chunk = (⟨buf ++ chunk, false⟩, .ok) := by
      unfold receive_data
      rw [if_pos hchunk]
      rfl
    have hassoc : buf ++ (chunk :: rest).join = (buf ++ chunk) ++ rest.join := by
      simp
    rw [hassoc] at h
    obtain ⟨ps₁, ps₂, m, hps, h1, h2⟩ := parsesTo_split h (buf ++ chunk) rest.join rfl
    have hm : PartialFrame m := parsesTo_partialFrame h1
    have hd : drain fuel ⟨buf ++ chunk, false⟩ = (⟨m, false⟩, ps₁, .needData) :=
      drain_parses h1 fuel (by subst hps; rw [List.length_append] at hf; omega)
    have hrest := ih (fun ch hc => hch ch (by simp [hc])) hm h2
      (by subst hps; rw [List.length_append] at hf; omega)
    rw [streamRun, hrecv]
    show (match drain fuel ⟨buf ++ chunk, false⟩ with
      | (c2, fs, DrainStop.needData) =>
        ((streamRun fuel c2 rest).1, fs ++ (streamRun fuel c2 rest).2.1,
          (streamRun fuel c2 rest).2.2)
      | (c2, fs, DrainStop.connectionClosed) =>
        ((streamRun fuel c2 rest).1, fs ++ (streamRun fuel c2 rest).2.1,
          (streamRun fuel c2 rest).2.2)
      | (c2, fs, DrainStop.valueError) => (c2, fs, StreamStop.valueError)
      | (c2, fs, DrainStop.indexError) => (c2, fs, StreamStop.indexError)
      | (c2, fs, DrainStop.outOfFuel) => (c2, fs, StreamStop.outOfFuel)) = _
    rw [hd]
    show ((streamRun fuel ⟨m, false⟩ rest).1,
      ps₁ ++ (streamRun fuel ⟨m, false⟩ rest).2.1,
      (streamRun fuel ⟨m, false⟩ rest).2.2) = _
    rw [hrest, hps]

/-! ### Derived helper facts -/

/-- One encoded frame parses to exactly its payload with nothing left. -/
theorem parsesTo_send_data (p : Bytes) : ParsesTo (send_data p) [p] [] :=
  ParsesTo.cons (natRepr_ne_nil p.length) (natRepr_digits p.length)
    (digitsVal_natRepr p.length) (ParsesTo.nil (Or.inl rfl))

/-- Decoding one encoded frame at the head of the buffer yields its
payload and leaves exactly the tail. -/
theorem next_event_send_data (p tail : Bytes) (cl : Bool) :
    next_event ⟨send_data p ++ tail, cl⟩ = (⟨tail, cl⟩, .frame p) := by
  have hterm : (p ++ END_ORD :: tail).get? (digitsVal (natRepr p.length)) =
      some END_ORD := by
    rw [digitsVal_natRepr, List.get?_append_right (le_refl _)]
    simp
  have hlen : digitsVal (natRepr p.length) + 1 ≤ (p ++ END_ORD :: tail).length := by
    rw [digitsVal_natRepr]
    simp
  have h := next_event_frame cl (natRepr_ne_nil p.length) (natRepr_digits p.length)
    hlen hterm
  rw [digitsVal_natRepr] at h
  have htake : (p ++ END_ORD :: tail).take p.length = p := by
    rw [List.take_left]
  have hdrop : (p ++ END_ORD :: tail).drop (p.length + 1) = tail := by
    have h2 : p ++ END_ORD :: tail = (p ++ [END_ORD]) ++ tail := by simp
    have hl : p.length + 1 = (p ++ [END_ORD]).length := by simp
    rw [h2, hl, List.drop_left]
  rw [htake, hdrop] at h
  have hrw : send_data p ++ tail = natRepr p.length ++ COLON :: (p ++ END_ORD :: tail) := by
    simp [send_data]
  rw [hrw, h]

/-- Whenever `next_event` answers `NeedMoreData` it has not mutated the
connection, so extra `next_event` calls between feeds are no-ops. -/
theorem next_event_needData_pure (c : Connection) :
    (next_event c).2 = .needData → (next_event c).1 = c := by
  unfold next_event
  repeat' first
  | split
  | dsimp only
  all_goals intro h
  all_goals first
  | rfl
  | cases h

/-! ### The claims -/

/-- **C1** Round-trip: for every byte payload `p`, including the empty
payload, feeding a fresh Framer `encode(p)` (the `Connection.send_data`
output) in one feed call succeeds, and draining with `next_event` yields
exactly the single Frame `p`, after which the buffer is empty (the drain
ends in `NeedMoreData` on an open, empty connection). -/
theorem C1_roundtrip (p : Bytes) :
    receive_data Connection.init (send_data p) = (⟨send_data p, false⟩, .ok) ∧
    drain 2 ⟨send_data p, false⟩ = (⟨[], false⟩, [p], .needData) := by
  constructor
  · unfold receive_data
    rw [if_pos (by simp [send_data])]
    rfl
  · exact drain_parses (parsesTo_send_data p) 2 (by simp)

/-- **C2 (counterexample)** The claim says any length region that is not
a pure ASCII digit run (a sign, whitespace, an underscore, a letter)
makes `next_event` close the Framer and fail with `MalformedFrame`.  In
fact Python's `int()` accepts a sign: buffer `b"+3:foo,"` decodes to the
Frame `b"foo"`, and buffer `b"+1"` (no colon yet) yields `NeedMoreData`. -/
theorem C2_digit_only_counterexample :
    (next_event ⟨[43, 51, 58, 102, 111, 111, 44], false⟩).2 = .frame [102, 111, 111] ∧
    next_event ⟨[43, 49], false⟩ = (⟨[43, 49], false⟩, .needData) := by
  constructor
  · rfl
  · rfl

/-- **C2 (amended)** `next_event` accepts the length region (the bytes
before the first colon, or the whole buffer when no colon is present)
exactly when the Python `int()` model accepts it — digits possibly with a
sign, surrounding ASCII whitespace, or underscore separators.  When the
region is rejected: with no colon present, the Framer transitions to
Closed with a cleared buffer and fails with `MalformedFrame`
(`ValueError`); with a colon present, it fails with `MalformedFrame` but
leaves the Framer open and the buffer intact. -/
theorem C2_length_region_intake (buf : Bytes) (hne : buf ≠ []) :
    (findColon buf = none → pyInt buf = none →
      next_event ⟨buf, false⟩ = (⟨[], true⟩, .valueError)) ∧
    (∀ n : Int, findColon buf = none → pyInt buf = some n →
      next_event ⟨buf, false⟩ = (⟨buf, false⟩, .needData)) ∧
    (∀ ndig : Nat, findColon buf = some ndig → pyInt (buf.take ndig) = none →
      next_event ⟨buf, false⟩ = (⟨buf, false⟩, .valueError)) := by
  refine ⟨fun h1 h2 => ?_, fun n h1 h2 => ?_, fun ndig h1 h2 => ?_⟩
  · unfold next_event
    rw [if_neg hne]
    simp only [h1, h2]
    rfl
  · unfold next_event
    rw [if_neg hne]
    simp only [h1, h2]
    rfl
  · unfold next_event
    rw [if_neg hne]
    simp only [h1, h2]

theorem C2_length_region_intake_witness :
    next_event ⟨[97], false⟩ = (⟨[], true⟩, .valueError) :=
  (C2_length_region_intake [97] (by decide)).1 (by decide) (by decide)

/-- **C3** Successful decode is exact and verbatim: with a digit run `D`,
a colon, at least `digitsVal D + 1` further bytes and the terminator in
place, `next_event` returns exactly the `digitsVal D` bytes after the
colon, uninterpreted, and removes exactly the frame's bytes from the
buffer, leaving the remainder untouched. -/
theorem C3_decode_verbatim (D rest : Bytes) (cl : Bool) (hD : D ≠ [])
    (hdig : ∀ b ∈ D, isPyDigit b = true)
    (hlen : digitsVal D + 1 ≤ rest.length)
    (hterm : rest.get? (digitsVal D) = some END_ORD) :
    next_event ⟨D ++ COLON :: rest, cl⟩ =
      (⟨rest.drop (digitsVal D + 1), cl⟩, .frame (rest.take (digitsVal D))) :=
  next_event_frame cl hD hdig hlen hterm

theorem C3_decode_verbatim_witness :
    next_event ⟨[49, 51, 58, 49, 51, 58, 114, 101, 99, 117, 114, 115, 105, 118,
      101, 49, 44], false⟩ =
      (⟨[], false⟩, .frame [49, 51, 58, 114, 101, 99, 117, 114, 115, 105, 118, 101, 49]) :=
  C3_decode_verbatim [49, 51]
    [49, 51, 58, 114, 101, 99, 117, 114, 115, 105, 118, 101, 49, 44] false
    (by decide) (by decide) (by decide) (by decide)

/-- **C4** Terminator enforcement: with a complete candidate frame whose
byte right after the payload is not the comma, `next_event` transitions
to Closed, clears the buffer and fails with `MalformedFrame`
(`ValueError`). -/
theorem C4_terminator_enforcement (D rest : Bytes) (cl : Bool) (b : Nat)
    (hD : D ≠ []) (hdig : ∀ b ∈ D, isPyDigit b = true)
    (hlen : digitsVal D + 1 ≤ rest.length)
    (hb : rest.get? (digitsVal D) = some b) (hbne : b ≠ END_ORD) :
    next_event ⟨D ++ COLON :: rest, cl⟩ = (⟨[], true⟩, .valueError) :=
  next_event_badTerm cl hD hdig hlen hb hbne

theorem C4_terminator_enforcement_witness :
    next_event ⟨[53, 58, 72, 101, 108, 108, 111, 33], false⟩ =
      (⟨[], true⟩, .valueError) :=
  C4_terminator_enforcement [53] [72, 101, 108, 108, 111, 33] false 33
    (by decide) (by decide) (by decide) (by decide) (by decide)

/-- **C5** Fragmentation invariance: splitting one encoded frame into any
finite sequence of non-empty chunks and feeding them in order into a
fresh Framer, draining between feeds, produces the same result as one
feed: exactly the one Frame `p`, a normal finish, and an open empty
connection.  Moreover `next_event` does not mutate the connection when it
answers `NeedMoreData`, so calling it arbitrarily often between feeds
changes nothing. -/
theorem C5_fragmentation_invariance (p : Bytes) (chunks : List Bytes)
    (hch : ∀ ch ∈ chunks, ch ≠ []) (hjoin : chunks.join = send_data p)
    (fuel : Nat) (hf : 1 < fuel) :
    streamRun fuel Connection.init chunks = (⟨[], false⟩, [p], .done) ∧
    ∀ c : Connection, (next_event c).2 = .needData → (next_event c).1 = c := by
  constructor
  · have h : ParsesTo (([] : Bytes) ++ chunks.join) [p] [] := by
      rw [List.nil_append, hjoin]
      exact parsesTo_send_data p
    exact streamRun_parses hch (Or.inl rfl) h (by simpa using hf)
  · exact next_event_needData_pure

theorem C5_fragmentation_invariance_witness :
    streamRun 2 Connection.init [[49], [58, 97, 44]] = (⟨[], false⟩, [[97]], .done) :=
  (C5_fragmentation_invariance [97] [[49], [58, 97, 44]] (by decide) (by decide)
    2 (by decide)).1

/-- **C6** Multi-frame batching: feeding `encode(p) ++ encode(q)` to a
fresh Framer in one feed call makes two successive `next_event` calls
return Frame `p` then Frame `q`, with no `NeedMoreData` between them. -/
theorem C6_multi_frame_batching (p q : Bytes) :
    receive_data Connection.init (send_data p ++ send_data q) =
      (⟨send_data p ++ send_data q, false⟩, .ok) ∧
    next_event ⟨send_data p ++ send_data q, false⟩ =
      (⟨send_data q, false⟩, .frame p) ∧
    next_event ⟨send_data q, false⟩ = (⟨[], false⟩, .frame q) := by
  refine ⟨?_, next_event_send_data p (send_data q) false, ?_⟩
  · unfold receive_data
    rw [if_pos (by simp [send_data])]
    rfl
  · have h := next_event_send_data q [] false
    rw [List.append_nil] at h
    exact h

/-- **C7** Feed-after-close atomicity: a non-empty feed on a closed
Framer fails with `InvalidState` and performs no mutation; an empty feed
on any Framer transitions to Closed with an empty buffer, idempotently
under repetition. -/
theorem C7_feed_after_close (c : Connection) (data : Bytes) :
    (c.closed = true → data ≠ [] → receive_data c data = (c, .invalidState)) ∧
    receive_data c [] = (⟨[], true⟩, .ok) ∧
    receive_data (receive_data c []).1 [] = receive_data c [] := by
  refine ⟨fun hc hd => ?_, ?_, ?_⟩
  · unfold receive_data
    rw [if_pos hd, if_pos hc]
  · rfl
  · rfl

theorem C7_feed_after_close_witness :
    receive_data ⟨[49], true⟩ [50] = (⟨[49], true⟩, .invalidState) :=
  (C7_feed_after_close ⟨[49], true⟩ [50]).1 rfl (by decide)

/-- **C8** State invariants: along any sequence of `receive_data`,
`next_event` and `close` calls, (i) the closed flag, once true, is never
reset, and (ii) every reachable closed state has an empty buffer. -/
theorem C8_state_invariants :
    (∀ c c' : Connection, Step c c' → c.closed = true → c'.closed = true) ∧
    (∀ c : Connection, Reachable c → c.closed = true → c.receive_buffer = []) :=
  ⟨fun _ _ h hc => step_closed_mono h hc,
   fun _ hr hc => reachable_closed_empty hr hc⟩

theorem C8_state_invariants_witness :
    (Connection.close ⟨[97], true⟩).closed = true ∧
    (Connection.close Connection.init).receive_buffer = [] :=
  ⟨C8_state_invariants.1 ⟨[97], true⟩ (Connection.close ⟨[97], true⟩)
    (Step.close ⟨[97], true⟩) rfl,
   C8_state_invariants.2 (Connection.close Connection.init)
    (Reachable.step Reachable.init (Step.close Connection.init)) rfl⟩

/-- **C9** Closed means `ConnectionClosed`: on every reachable state with
the closed flag set, `next_event` returns `ConnectionClosed` and changes
nothing — never `NeedMoreData` and never a Frame, because every
transition to Closed empties the buffer. -/
theorem C9_closed_reports_connection_closed (c : Connection) (hr : Reachable c)
    (hc : c.closed = true) : next_event c = (c, .connectionClosed) :=
  closed_empty_next hc (reachable_closed_empty hr hc)

theorem C9_closed_reports_connection_closed_witness :
    next_event (Connection.close Connection.init) =
      (Connection.close Connection.init, .connectionClosed) :=
  C9_closed_reports_connection_closed (Connection.close Connection.init)
    (Reachable.step Reachable.init (Step.close Connection.init)) rfl

/-- **C10** `stream` drops incomplete trailing data silently: when the
concatenated chunks are `k` complete well-formed frames followed by a
proper (possibly empty) prefix of another frame, the run yields exactly
those `k` Frames in order and terminates normally, with no error, the
connection still open, and the trailing partial bytes simply left
behind. -/
theorem C10_stream_drops_trailing (chunks ps : List Bytes) (r : Bytes)
    (hch : ∀ ch ∈ chunks, ch ≠ []) (hparse : ParsesTo chunks.join ps r)
    (fuel : Nat) (hf : ps.length < fuel) :
    streamRun fuel Connection.init chunks = (⟨r, false⟩, ps, .done) := by
  have h : ParsesTo (([] : Bytes) ++ chunks.join) ps r := by
    rw [List.nil_append]
    exact hparse
  exact streamRun_parses hch (Or.inl rfl) h hf

theorem C10_stream_drops_trailing_witness :
    streamRun 2 Connection.init [[51, 58, 102], [111, 111, 44, 52]] =
      (⟨[52], false⟩, [[102, 111, 111]], .done) :=
  C10_stream_drops_trailing [[51, 58, 102], [111, 111, 44, 52]]
    [[102, 111, 111]] [52] (by decide)
    (@ParsesTo.cons [51] [102, 111, 111] [52] [] [52] (by decide) (by decide)
      (by decide) (ParsesTo.nil (Or.inr (Or.inl (by decide)))))
    2 (by decide)

end Netstring
